import Mathlib

set_option maxHeartbeats 1000000

/-!
Shallow embedding of the configuration mutation engine of
`hadoop_g5k/util.py` (the XML property store and the flat property store),
together with proofs of the specification claims about it.

Modelling conventions:
* A file is represented by the list of its physical lines, each line being
  its characters including the trailing newline when present (exactly what
  Python's `readline`/file iteration yields).  The byte content of the file
  is the concatenation of the chunks; writes that append chunks are noted
  where the chunk/line distinction matters.
* Python exceptions (`TypeError`, `ValueError`) and divergence of the
  `readline` scan loops (which spin forever once `readline` returns `""`)
  are modelled by an explicit result type `PyResult`.
* `xml.etree.ElementTree` is external library code; its behaviour on the
  simple one-line-per-property documents this engine reads and writes is
  modelled by `parsedOf`/`etText` below ("Modelled from the spec" where
  noted).
-/

namespace HG5K

/-- Characters of a string literal, used to embed Python string constants. -/
def chars (s : String) : List Char := s.toList

/-- A physical line of a file: its characters, trailing newline included. -/
abbrev Line := List Char

/-- The Python exceptions and the divergence mode relevant here. `hang`
models the scan loops reading past end of file forever. -/
inductive PyErr where
  | typeError
  | valueError
  | hang
deriving DecidableEq

/-- Result of a Python fragment: a value, or an exception / divergence. -/
inductive PyResult (α : Type) where
  | ok : α → PyResult α
  | raised : PyErr → PyResult α
deriving DecidableEq

def PyResult.map {α β : Type} (f : α → β) : PyResult α → PyResult β
  | .ok a => .ok (f a)
  | .raised e => .raised e

/-- A Python value passed as the `value` argument: a string or an int. -/
inductive PyVal where
  | pstr : List Char → PyVal
  | pint : Int → PyVal
deriving DecidableEq

/-- Python `str(value)`. -/
def pyStr : PyVal → List Char
  | .pstr s => s
  | .pint n => chars (toString n)

/-- Python truthiness of an optional string: `None` and `""` are falsy. -/
def truthy : Option (List Char) → Bool
  | none => false
  | some s => !s.isEmpty

/-- `beginsWith hay pat`: `pat` occurs at the very start of `hay`. -/
def beginsWith : List Char → List Char → Bool
  | _, [] => true
  | [], _ :: _ => false
  | c :: cs, d :: ds => decide (c = d) && beginsWith cs ds

/-- Python's substring test `pat in hay`. -/
def containsSub : List Char → List Char → Bool
  | [], pat => beginsWith [] pat
  | c :: cs, pat => beginsWith (c :: cs) pat || containsSub cs pat

/-- Strip `pat` from the front of `hay`, returning the remainder. -/
def stripPre : List Char → List Char → Option (List Char)
  | cs, [] => some cs
  | [], _ :: _ => none
  | c :: cs, d :: ds => if c = d then stripPre cs ds else none

def valueOpenL : List Char := chars "<value>"
def valueCloseL : List Char := chars "</value>"
def closeTagL : List Char := chars "</configuration>"

/-- The literal `"<name>" + name + "</name>"` searched for by the rewrite. -/
def nameTagL (name : List Char) : List Char :=
  chars "<name>" ++ name ++ chars "</name>"

/-- One attempted match of the regex `<value>[^<]*</value>` at the start of
`cs`: the `[^<]*` part is the maximal run of non-`<` characters. Returns the
matched inner text and the remainder after `</value>`. -/
def matchValueAt (cs : List Char) : Option (List Char × List Char) :=
  match stripPre cs valueOpenL with
  | none => none
  | some r1 =>
    let b := r1.takeWhile (fun c => !decide (c = '<'))
    match stripPre (r1.drop b.length) valueCloseL with
    | none => none
    | some r2 => some (b, r2)

/-- The match chosen by `re.sub(r'(.*)<value>[^<]*</value>(.*)', ...)`: the
greedy leading `(.*)` selects the last position at which
`<value>[^<]*</value>` matches. Returns `(groupOne, innerText, groupTwo)`. -/
def findLastValue : List Char → Option (List Char × List Char × List Char)
  | [] => none
  | c :: rest =>
    match findLastValue rest with
    | some (a, b, r) => some (c :: a, b, r)
    | none =>
      match matchValueAt (c :: rest) with
      | some (b, r) => some ([], b, r)
      | none => none

/-- `util.__replace_line(line, value)` for a string `value`:
`re.sub(r'(.*)<value>[^<]*</value>(.*)', r'\g<1><value>' + value +
r'</value>\g<2>', line)`.  `.` does not match the trailing newline, so the
match spans the line body and the newline is carried over; if the pattern
does not match, the line is returned unchanged. -/
def __replace_line (line : List Char) (value : List Char) : List Char :=
  let body := if line.getLast? = some '\n' then line.dropLast else line
  let nl : List Char := if line.getLast? = some '\n' then ['\n'] else []
  match findLastValue body with
  | some (a, b, r) => a ++ valueOpenL ++ value ++ valueCloseL ++ r ++ nl
  | none => line

/-- `__replace_line` as invoked by `replace_in_xml_file`: the replacement
string is built by `r'\g<1><value>' + value`, which raises `TypeError`
before any matching when `value` is not a string. -/
def replaceLinePy (line : List Char) (value : PyVal) : PyResult (List Char) :=
  match value with
  | .pstr s => .ok (__replace_line line s)
  | .pint _ => .raised .typeError

/-- A parsed `<property>` entry as `xml.etree` exposes it to the readers:
the text of its `<name>` child and the text of its `<value>` child (`none`
for an empty `<value></value>` element, whose `.text` is Python `None`). -/
abbrev XProp := List Char × Option (List Char)

/-- `util.read_param_in_xml_file(f, name, default)` on the parsed document:
`root.findall("./property/[name='%s']/value" % name)` keeps matches in
document order and the function returns `res[0].text`, or `default` when
there is no match. -/
def read_param_in_xml_file (props : List XProp) (name : List Char)
    (default : Option (List Char)) : Option (List Char) :=
  match props.filter (fun p => decide (p.1 = name)) with
  | [] => default
  | p :: _ => p.2

/-- Python dict assignment `d[k] = v`: replace in place, or append. -/
def dictInsert {α : Type} : List (List Char × α) → List Char → α →
    List (List Char × α)
  | [], k, v => [(k, v)]
  | (k', v') :: t, k, v =>
    if k' = k then (k, v) :: t else (k', v') :: dictInsert t k v

/-- Python dict lookup `d[k]` (as an option). -/
def dictGet {α : Type} : List (List Char × α) → List Char → Option α
  | [], _ => none
  | (k, v) :: t, key => if k = key then some v else dictGet t key

/-- `util.read_in_xml_file(f, param_names)` on the parsed document: an empty
(falsy) name list short-circuits to `{}`; otherwise each requested name that
matches at least one property is mapped to `res[-1].text`, the text of the
last matching `<value>` element. -/
def read_in_xml_file (props : List XProp) (names : List (List Char)) :
    List (List Char × Option (List Char)) :=
  if names = [] then []
  else
    names.foldl (fun params n =>
      match (props.filter (fun p => decide (p.1 = n))).getLast? with
      | some p => dictInsert params n p.2
      | none => params) []

/-- The replace-branch scan of `replace_in_xml_file`: copy lines until one
contains `<name>NAME</name>`; rewrite the `<value>` on that line, or, when
that line has no `<value>`, on the following line; copy the rest verbatim.
Reading past end of file spins forever (`hang`); at most one further line is
read after the tag line, `readline` yielding `""` at end of file. -/
def xmlReplaceScan (lines : List Line) (name : List Char) (value : PyVal) :
    PyResult (List Line) :=
  match lines with
  | [] => .raised .hang
  | l :: rest =>
    if containsSub l (nameTagL name) then
      if containsSub l valueOpenL then
        PyResult.map (fun r => r :: rest) (replaceLinePy l value)
      else
        match rest with
        | [] => PyResult.map (fun r => [l, r]) (replaceLinePy [] value)
        | m :: rest2 =>
          PyResult.map (fun r => l :: r :: rest2) (replaceLinePy m value)
    else
      PyResult.map (fun out => l :: out) (xmlReplaceScan rest name value)

/-- The property line written by the create branch:
`"  <property><name>" + name + "</name>" + "<value>" + str(value) +
"</value></property>\n"`. -/
def newPropLine (name : List Char) (value : PyVal) : Line :=
  chars "  <property><name>" ++ name ++ chars "</name>" ++ chars "<value>" ++
    pyStr value ++ chars "</value></property>\n"

/-- The create-branch scan of `replace_in_xml_file`: copy lines until one
contains `</configuration>`, insert the new property line before it, write
that closing line — and stop: any lines after the closing line are dropped.
Reading past end of file spins forever (`hang`). -/
def xmlCreateScan (lines : List Line) (newLine : Line) : PyResult (List Line) :=
  match lines with
  | [] => .raised .hang
  | l :: rest =>
    if containsSub l closeTagL then .ok [newLine, l]
    else PyResult.map (fun out => l :: out) (xmlCreateScan rest newLine)

/-- `util.replace_in_xml_file(f, name, value, create_if_absent,
replace_if_present)`.  `parsed` is the property list that
`xml.etree` yields for the same file `lines` (the current value is looked up
with `read_param_in_xml_file`); the returned lines are the file content
after the final `shutil.copyfile`, or the unchanged input on the
boolean-false no-op paths, which return before any temporary file exists. -/
def replace_in_xml_file (parsed : List XProp) (lines : List Line)
    (name : List Char) (value : PyVal)
    (create_if_absent replace_if_present : Bool) : PyResult (List Line × Bool) :=
  let current_value := read_param_in_xml_file parsed name none
  if truthy current_value then
    if replace_if_present then
      PyResult.map (fun out => (out, true)) (xmlReplaceScan lines name value)
    else .ok (lines, false)
  else
    if create_if_absent then
      PyResult.map (fun out => (out, true))
        (xmlCreateScan lines (newPropLine name value))
    else .ok (lines, false)

/-- `util.create_xml_file(f)`: the two physical lines written. -/
def create_xml_file : List Line :=
  [chars "<configuration>\n", chars "</configuration>"]

/-- Python `str.isspace` characters relevant to `str.split()`. -/
def pyIsSpace (c : Char) : Bool :=
  c = ' ' || c = '\t' || c = '\n' || c = '\r' || c = '\x0b' || c = '\x0c'

/-- Python `line.split()`: split on runs of whitespace, dropping leading and
trailing whitespace; the result never contains an empty token. -/
def pySplit : List Char → List (List Char)
  | [] => []
  | c :: rest =>
    if pyIsSpace c then pySplit rest
    else
      match rest with
      | [] => [[c]]
      | d :: _ =>
        if pyIsSpace d then [c] :: pySplit rest
        else
          match pySplit rest with
          | [] => [[c]]
          | w :: ws => (c :: w) :: ws

/-- What `util.__parse_props_line(line)` returns: the pair `(None, None)`
for a comment or a blank/whitespace-only line, and otherwise the raw token
list `parts` — of whatever length `line.split()` produced. -/
inductive PropsLine where
  | skip : PropsLine
  | fields : List (List Char) → PropsLine
deriving DecidableEq

/-- `util.__parse_props_line(line)`. -/
def __parse_props_line (line : Line) : PropsLine :=
  if beginsWith line (chars "#") then .skip
  else
    match pySplit line with
    | [] => .skip
    | parts => .fields parts

/-- The tuple unpacking `(pname, pvalue) = __parse_props_line(line)`
performed by every caller: `(None, None)` unpacks to two `None`s, a
two-token list unpacks to its tokens, and any other token-list length
raises `ValueError`. -/
def unpack2 (r : PropsLine) : PyResult (Option (List Char) × Option (List Char)) :=
  match r with
  | .skip => .ok (none, none)
  | .fields [a, b] => .ok (some a, some b)
  | .fields _ => .raised .valueError

/-- `util.read_param_in_props_file(f, name, default)`: scan the lines in
order, unpacking each parsed line; return `pvalue` at the first line with
`name and pname == name`, and `default` if the scan ends. A line whose
token count is not two raises `ValueError` out of the scan. -/
def read_param_in_props_file (lines : List Line) (name : List Char)
    (default : Option (List Char)) : PyResult (Option (List Char)) :=
  match lines with
  | [] => .ok default
  | l :: rest =>
    match unpack2 (__parse_props_line l) with
    | .raised e => .raised e
    | .ok (pname, pvalue) =>
      if name ≠ [] ∧ pname = some name then .ok pvalue
      else read_param_in_props_file rest name default

/-- One iteration of the loop of `util.read_in_props_file`:
`params[pname] = pvalue` when the parsed line has a truthy key that the
(optional) name filter admits; otherwise `params` is left as is. -/
def propsStep (names : Option (List (List Char)))
    (params : List (List Char × Option (List Char))) (l : Line) :
    PyResult (List (List Char × Option (List Char))) :=
  match unpack2 (__parse_props_line l) with
  | .raised e => .raised e
  | .ok (pname, pvalue) =>
    match pname with
    | some p =>
      if p ≠ [] then
        match names with
        | none => .ok (dictInsert params p pvalue)
        | some ns =>
          if p ∈ ns then .ok (dictInsert params p pvalue) else .ok params
      else .ok params
    | none => .ok params

/-- The accumulator loop of `util.read_in_props_file`. -/
def read_in_props_aux (lines : List Line) (names : Option (List (List Char)))
    (params : List (List Char × Option (List Char))) :
    PyResult (List (List Char × Option (List Char))) :=
  match lines with
  | [] => .ok params
  | l :: rest =>
    match propsStep names params l with
    | .raised e => .raised e
    | .ok ps => read_in_props_aux rest names ps

/-- `util.read_in_props_file(f, param_names)`. -/
def read_in_props_file (lines : List Line)
    (param_names : Option (List (List Char))) :
    PyResult (List (List Char × Option (List Char))) :=
  read_in_props_aux lines param_names []

/-- The override scan of `util.write_in_props_file`: copy lines while
`not pname or pname != name`; at the first line whose key equals `name`,
write `pname + "\t" + str(value) + "\n"` instead and copy the rest
verbatim.  Reading past end of file spins forever (`hang`), and a line
whose token count is not two raises `ValueError`. -/
def propsOverwriteScan (lines : List Line) (name : List Char) (value : PyVal) :
    PyResult (List Line) :=
  match lines with
  | [] => .raised .hang
  | l :: rest =>
    match unpack2 (__parse_props_line l) with
    | .raised e => .raised e
    | .ok (pname, _pvalue) =>
      match pname with
      | some p =>
        if p ≠ [] ∧ p = name then
          .ok ((p ++ chars "\t" ++ pyStr value ++ chars "\n") :: rest)
        else PyResult.map (fun out => l :: out) (propsOverwriteScan rest name value)
      | none => PyResult.map (fun out => l :: out) (propsOverwriteScan rest name value)

/-- `util.write_in_props_file(f, name, value, create_if_absent, override)`.
The current value is looked up with `read_param_in_props_file` (an exception
there propagates); the boolean-false no-op paths return before any file is
touched; the create branch appends `name + "\t" + str(value) + "\n"` — one
chunk, which is a new physical line whenever the previous content ended
with a newline (or was empty). -/
def write_in_props_file (lines : List Line) (name : List Char) (value : PyVal)
    (create_if_absent override : Bool) : PyResult (List Line × Bool) :=
  match read_param_in_props_file lines name none with
  | .raised e => .raised e
  | .ok current_value =>
    if truthy current_value then
      if override then
        PyResult.map (fun out => (out, true)) (propsOverwriteScan lines name value)
      else .ok (lines, false)
    else
      if create_if_absent then
        .ok (lines ++ [name ++ chars "\t" ++ pyStr value ++ chars "\n"], true)
      else .ok (lines, false)

/-- A name/value property of the simple single-line XML documents this
engine reads and writes (the shape `create_xml_file` plus the create branch
produce). The value is stored as raw text; `""` renders as the empty
element `<value></value>`. -/
structure SXProp where
  name : List Char
  val : List Char
deriving DecidableEq

/-- The physical line a simple property occupies: exactly the line the
create branch of `replace_in_xml_file` writes. -/
def renderProp (p : SXProp) : Line :=
  newPropLine p.name (.pstr p.val)

/-- The physical lines of a simple document: the `create_xml_file`
boilerplate around one line per property. -/
def renderDoc (ps : List SXProp) : List Line :=
  chars "<configuration>\n" :: ps.map renderProp ++ [chars "</configuration>"]

/-- Modelled from the spec: `xml.etree`'s `.text` of a rendered `<value>`
element — Python `None` for the empty element `<value></value>`, the raw
text otherwise (the engine performs no escaping, and names/values here are
plain text without markup). -/
def etText (v : List Char) : Option (List Char) :=
  if v = [] then none else some v

/-- Modelled from the spec: the property list `ET.parse` yields for
`renderDoc ps`, in document order. -/
def parsedOf (ps : List SXProp) : List XProp :=
  ps.map (fun p => (p.name, etText p.val))

/-- A flat-store line that the writer/reader scans straight past: it
unpacks without a `ValueError` and its key is not `name`. -/
def flatSkips (l : Line) (name : List Char) : Bool :=
  match unpack2 (__parse_props_line l) with
  | .ok (pname, _) => decide (pname ≠ some name)
  | .raised _ => false

/-- A flat-store line that unpacks without a `ValueError`: a comment, a
blank line, or a line of exactly two tokens. -/
def lineWF (l : Line) : Bool :=
  match __parse_props_line l with
  | .skip => true
  | .fields ps => decide (ps.length = 2)

/-- The decomposition of a flat file at the first line whose key equals
`name`, provided the scan reaches it without a `ValueError`:
`(lines before, the matching line, lines after)`. -/
def flatSplitAt (lines : List Line) (name : List Char) :
    Option (List Line × Line × List Line) :=
  match lines with
  | [] => none
  | l :: rest =>
    match unpack2 (__parse_props_line l) with
    | .raised _ => none
    | .ok (pname, _) =>
      if name ≠ [] ∧ pname = some name then some ([], l, rest)
      else
        match flatSplitAt rest name with
        | some (b, m, a) => some (l :: b, m, a)
        | none => none

/-! ### Basic lemmas about the embedding -/

@[simp]
theorem PyResult.map_ok {α β : Type} (f : α → β) (a : α) :
    PyResult.map f (.ok a) = .ok (f a) := rfl

@[simp]
theorem PyResult.map_raised {α β : Type} (f : α → β) (e : PyErr) :
    PyResult.map f (.raised e : PyResult α) = .raised e := rfl

theorem PyResult.map_map {α β γ : Type} (f : α → β) (g : β → γ)
    (r : PyResult α) :
    PyResult.map g (PyResult.map f r) = PyResult.map (fun a => g (f a)) r := by
  cases r <;> rfl

theorem PyResult.map_ne_raised {α β : Type} (f : α → β) (r : PyResult α)
    (e : PyErr) (h : r ≠ .raised e) : PyResult.map f r ≠ .raised e := by
  cases r with
  | ok a => simp
  | raised e2 =>
    simp only [PyResult.map_raised]
    intro hh
    injection hh with h2
    exact h (by rw [h2])

theorem xmlReplaceScan_skip (l : Line) (rest : List Line) (name : List Char)
    (v : PyVal) (h : containsSub l (nameTagL name) = false) :
    xmlReplaceScan (l :: rest) name v
      = PyResult.map (fun out => l :: out) (xmlReplaceScan rest name v) := by
  simp [xmlReplaceScan, h]

theorem xmlReplaceScan_append (pre rest : List Line) (name : List Char)
    (v : PyVal) (h : ∀ l ∈ pre, containsSub l (nameTagL name) = false) :
    xmlReplaceScan (pre ++ rest) name v
      = PyResult.map (fun out => pre ++ out) (xmlReplaceScan rest name v) := by
  induction pre with
  | nil => cases hsc : xmlReplaceScan rest name v <;> simp [hsc]
  | cons l t ih =>
    rw [List.cons_append, xmlReplaceScan_skip _ _ _ _ (h l (by simp)),
      ih (fun x hx => h x (List.mem_cons_of_mem _ hx)), PyResult.map_map]
    rfl

theorem xmlCreateScan_skip (l : Line) (rest : List Line) (nw : Line)
    (h : containsSub l closeTagL = false) :
    xmlCreateScan (l :: rest) nw
      = PyResult.map (fun out => l :: out) (xmlCreateScan rest nw) := by
  simp [xmlCreateScan, h]

theorem xmlCreateScan_append (pre rest : List Line) (nw : Line)
    (h : ∀ l ∈ pre, containsSub l closeTagL = false) :
    xmlCreateScan (pre ++ rest) nw
      = PyResult.map (fun out => pre ++ out) (xmlCreateScan rest nw) := by
  induction pre with
  | nil => cases hsc : xmlCreateScan rest nw <;> simp [hsc]
  | cons l t ih =>
    rw [List.cons_append, xmlCreateScan_skip _ _ _ (h l (by simp)),
      ih (fun x hx => h x (List.mem_cons_of_mem _ hx)), PyResult.map_map]
    rfl

theorem propsOverwriteScan_skip (l : Line) (rest : List Line)
    (name : List Char) (v : PyVal) (h : flatSkips l name = true) :
    propsOverwriteScan (l :: rest) name v
      = PyResult.map (fun out => l :: out) (propsOverwriteScan rest name v) := by
  unfold flatSkips at h
  cases hu : unpack2 (__parse_props_line l) with
  | raised e => rw [hu] at h; simp at h
  | ok pr =>
    rw [hu] at h
    obtain ⟨pname, pv⟩ := pr
    simp only [decide_eq_true_eq] at h
    cases pname with
    | none => simp [propsOverwriteScan, hu]
    | some p =>
      have hc : ¬(p ≠ [] ∧ p = name) := by
        rintro ⟨-, rfl⟩; exact h rfl
      simp [propsOverwriteScan, hu, hc]

theorem propsOverwriteScan_append (pre rest : List Line) (name : List Char)
    (v : PyVal) (h : ∀ l ∈ pre, flatSkips l name = true) :
    propsOverwriteScan (pre ++ rest) name v
      = PyResult.map (fun out => pre ++ out) (propsOverwriteScan rest name v) := by
  induction pre with
  | nil => cases hsc : propsOverwriteScan rest name v <;> simp [hsc]
  | cons l t ih =>
    rw [List.cons_append, propsOverwriteScan_skip _ _ _ _ (h l (by simp)),
      ih (fun x hx => h x (List.mem_cons_of_mem _ hx)), PyResult.map_map]
    rfl

theorem read_param_props_skip (l : Line) (rest : List Line) (name : List Char)
    (d : Option (List Char)) (h : flatSkips l name = true) :
    read_param_in_props_file (l :: rest) name d
      = read_param_in_props_file rest name d := by
  unfold flatSkips at h
  cases hu : unpack2 (__parse_props_line l) with
  | raised e => rw [hu] at h; simp at h
  | ok pr =>
    rw [hu] at h
    obtain ⟨pname, pv⟩ := pr
    simp only [decide_eq_true_eq] at h
    have hc : ¬(name ≠ [] ∧ pname = some name) := by
      rintro ⟨-, he⟩; exact h he
    simp [read_param_in_props_file, hu, hc]

theorem read_param_props_append (pre rest : List Line) (name : List Char)
    (d : Option (List Char)) (h : ∀ l ∈ pre, flatSkips l name = true) :
    read_param_in_props_file (pre ++ rest) name d
      = read_param_in_props_file rest name d := by
  induction pre with
  | nil => rfl
  | cons l t ih =>
    rw [List.cons_append, read_param_props_skip _ _ _ _ (h l (by simp)),
      ih (fun x hx => h x (List.mem_cons_of_mem _ hx))]

theorem read_param_props_found (l : Line) (rest : List Line)
    (name : List Char) (pv d : Option (List Char))
    (hu : unpack2 (__parse_props_line l) = .ok (some name, pv))
    (hn : name ≠ []) :
    read_param_in_props_file (l :: rest) name d = .ok pv := by
  simp [read_param_in_props_file, hu, hn]

theorem propsOverwriteScan_found (l : Line) (rest : List Line)
    (name : List Char) (pv : Option (List Char)) (v : PyVal)
    (hu : unpack2 (__parse_props_line l) = .ok (some name, pv))
    (hn : name ≠ []) :
    propsOverwriteScan (l :: rest) name v
      = .ok ((name ++ chars "\t" ++ pyStr v ++ chars "\n") :: rest) := by
  simp [propsOverwriteScan, hu, hn]

theorem xmlCreateScan_found (l : Line) (rest : List Line) (nw : Line)
    (h : containsSub l closeTagL = true) :
    xmlCreateScan (l :: rest) nw = .ok [nw, l] := by
  simp [xmlCreateScan, h]

theorem xmlReplaceScan_found_same (l : Line) (rest : List Line)
    (name : List Char) (v : PyVal)
    (h : containsSub l (nameTagL name) = true)
    (hv : containsSub l valueOpenL = true) :
    xmlReplaceScan (l :: rest) name v
      = PyResult.map (fun r => r :: rest) (replaceLinePy l v) := by
  simp [xmlReplaceScan, h, hv]

theorem xmlReplaceScan_found_next (l m : Line) (rest : List Line)
    (name : List Char) (v : PyVal)
    (h : containsSub l (nameTagL name) = true)
    (hv : containsSub l valueOpenL = false) :
    xmlReplaceScan (l :: m :: rest) name v
      = PyResult.map (fun r => l :: r :: rest) (replaceLinePy m v) := by
  simp [xmlReplaceScan, h, hv]

/-! ### Lemmas about `pySplit` and line parsing -/

theorem pySplit_cons_space (c : Char) (rest : List Char)
    (hc : pyIsSpace c = true) : pySplit (c :: rest) = pySplit rest := by
  simp [pySplit, hc]

theorem pySplit_single (c : Char) (hc : pyIsSpace c = false) :
    pySplit [c] = [[c]] := by
  simp [pySplit, hc]

theorem pySplit_cons_cons_space (c d : Char) (t : List Char)
    (hc : pyIsSpace c = false) (hd : pyIsSpace d = true) :
    pySplit (c :: d :: t) = [c] :: pySplit (d :: t) := by
  conv_lhs => rw [pySplit.eq_def]
  simp [hc, hd]

theorem pySplit_cons_cons (c d : Char) (t : List Char)
    (hc : pyIsSpace c = false) (hd : pyIsSpace d = false) :
    pySplit (c :: d :: t)
      = match pySplit (d :: t) with
        | [] => [[c]]
        | w :: ws => (c :: w) :: ws := by
  conv_lhs => rw [pySplit.eq_def]
  simp [hc, hd]

theorem pySplit_ne_nil (s : List Char) : ∀ w ∈ pySplit s, w ≠ [] := by
  induction s with
  | nil => simp [pySplit]
  | cons c rest ih =>
    by_cases hc : pyIsSpace c
    · simpa [pySplit_cons_space c rest hc] using ih
    · have hcf : pyIsSpace c = false := by simpa using hc
      cases rest with
      | nil => simp [pySplit_single c hcf]
      | cons d t =>
        by_cases hd : pyIsSpace d
        · rw [pySplit_cons_cons_space c d t hcf hd]
          intro w hw
          rcases List.mem_cons.mp hw with h1 | h2
          · simp [h1]
          · exact ih w h2
        · have hdf : pyIsSpace d = false := by simpa using hd
          rw [pySplit_cons_cons c d t hcf hdf]
          cases hps : pySplit (d :: t) with
          | nil => simp
          | cons w ws =>
            intro x hx
            rcases List.mem_cons.mp hx with h1 | h2
            · simp [h1]
            · exact ih x (by rw [hps]; exact List.mem_cons_of_mem _ h2)

/-- Tokenisation of `x ++ s :: r` when `x` is a nonempty whitespace-free
token followed by the whitespace character `s`: `x` is the first token. -/
theorem pySplit_word_space (x : List Char) (s : Char) (r : List Char)
    (hx : x ≠ []) (hall : ∀ c ∈ x, pyIsSpace c = false)
    (hs : pyIsSpace s = true) :
    pySplit (x ++ s :: r) = x :: pySplit r := by
  induction x with
  | nil => exact absurd rfl hx
  | cons c t ih =>
    cases t with
    | nil =>
      have hc : pyIsSpace c = false := hall c (by simp)
      rw [List.singleton_append, pySplit_cons_cons_space c s r hc hs,
        pySplit_cons_space s r hs]
    | cons d t2 =>
      have hc : pyIsSpace c = false := hall c (by simp)
      have hd : pyIsSpace d = false := hall d (by simp)
      have ih2 := ih (by simp) (fun e he => hall e (List.mem_cons_of_mem _ he))
      simp only [List.cons_append] at ih2 ⊢
      rw [pySplit_cons_cons c d (t2 ++ s :: r) hc hd, ih2]

/-- A nonempty whitespace-free token standing alone is a single token. -/
theorem pySplit_word (x : List Char) (hx : x ≠ [])
    (hall : ∀ c ∈ x, pyIsSpace c = false) : pySplit x = [x] := by
  induction x with
  | nil => exact absurd rfl hx
  | cons c t ih =>
    cases t with
    | nil =>
      have hc : pyIsSpace c = false := hall c (by simp)
      exact pySplit_single c hc
    | cons d t2 =>
      have hc : pyIsSpace c = false := hall c (by simp)
      have hd : pyIsSpace d = false := hall d (by simp)
      have ih2 := ih (by simp) (fun e he => hall e (List.mem_cons_of_mem _ he))
      rw [pySplit_cons_cons c d t2 hc hd, ih2]

theorem unpack2_fields (r : PropsLine) (a b : List Char)
    (h : unpack2 r = .ok (some a, some b)) : r = .fields [a, b] := by
  cases r with
  | skip => simp [unpack2] at h
  | fields ps =>
    cases ps with
    | nil => simp [unpack2] at h
    | cons x t1 =>
      cases t1 with
      | nil => simp [unpack2] at h
      | cons y t2 =>
        cases t2 with
        | nil =>
          simp only [unpack2, PyResult.ok.injEq, Prod.mk.injEq,
            Option.some.injEq] at h
          rw [h.1, h.2]
        | cons z t3 => simp [unpack2] at h

theorem parse_props_fields (l : Line) (ps : List (List Char))
    (h : __parse_props_line l = .fields ps) :
    pySplit l = ps ∧ beginsWith l (chars "#") = false := by
  unfold __parse_props_line at h
  by_cases hb : beginsWith l (chars "#")
  · simp [hb] at h
  · rw [if_neg hb] at h
    refine ⟨?_, by simp [hb]⟩
    cases hs : pySplit l with
    | nil => rw [hs] at h; simp at h
    | cons w ws => rw [hs] at h; injection h with h2

/-- The two tokens of a successfully unpacked key/value line are nonempty
(`str.split` never yields an empty token), so the key and value are truthy. -/
theorem unpack2_tokens_ne_nil (l : Line) (a b : List Char)
    (h : unpack2 (__parse_props_line l) = .ok (some a, some b)) :
    a ≠ [] ∧ b ≠ [] := by
  have hf := unpack2_fields _ _ _ h
  have hp := (parse_props_fields _ _ hf).1
  exact ⟨pySplit_ne_nil l a (by rw [hp]; simp),
    pySplit_ne_nil l b (by rw [hp]; simp)⟩

/-! ### Dictionary lemmas -/

theorem dictGet_insert_self {α : Type} (d : List (List Char × α))
    (k : List Char) (v : α) : dictGet (dictInsert d k v) k = some v := by
  induction d with
  | nil => simp [dictInsert, dictGet]
  | cons p t ih =>
    obtain ⟨k', v'⟩ := p
    by_cases h : k' = k
    · simp [dictInsert, dictGet, h]
    · simp [dictInsert, dictGet, h, ih]

theorem dictGet_insert_other {α : Type} (d : List (List Char × α))
    (k k2 : List Char) (v : α) (h : k ≠ k2) :
    dictGet (dictInsert d k v) k2 = dictGet d k2 := by
  induction d with
  | nil => simp [dictInsert, dictGet, h]
  | cons p t ih =>
    obtain ⟨k', v'⟩ := p
    by_cases h2 : k' = k
    · subst h2; simp [dictInsert, dictGet, h]
    · simp only [dictInsert, if_neg h2]
      by_cases h3 : k' = k2 <;> simp [dictGet, h3, ih]

/-! ### Lemmas about `read_in_props_aux` -/

theorem read_in_props_aux_append (xs ys : List Line)
    (names : Option (List (List Char)))
    (params : List (List Char × Option (List Char))) :
    read_in_props_aux (xs ++ ys) names params
      = match read_in_props_aux xs names params with
        | .ok ps => read_in_props_aux ys names ps
        | .raised e => .raised e := by
  induction xs generalizing params with
  | nil => simp [read_in_props_aux]
  | cons l t ih =>
    simp only [List.cons_append, read_in_props_aux]
    cases propsStep names params l with
    | raised e => rfl
    | ok ps => exact ih ps

/-- A line that skips relative to key `k` leaves `params[k]` unchanged
through `propsStep` (it may insert a different key). -/
theorem propsStep_preserves (names : Option (List (List Char)))
    (params : List (List Char × Option (List Char))) (l : Line)
    (k : List Char) (h : flatSkips l k = true) :
    ∃ ps, propsStep names params l = .ok ps ∧ dictGet ps k = dictGet params k := by
  unfold flatSkips at h
  cases hu : unpack2 (__parse_props_line l) with
  | raised e => rw [hu] at h; simp at h
  | ok pr =>
    rw [hu] at h
    obtain ⟨pname, pv⟩ := pr
    simp only [decide_eq_true_eq] at h
    cases pname with
    | none => exact ⟨params, by simp [propsStep, hu], rfl⟩
    | some p =>
      have hpk : p ≠ k := fun he => h (by rw [he])
      by_cases hp : p = []
      · exact ⟨params, by simp [propsStep, hu, hp], rfl⟩
      · cases names with
        | none =>
          exact ⟨dictInsert params p pv, by simp [propsStep, hu, hp],
            dictGet_insert_other _ _ _ _ hpk⟩
        | some ns =>
          by_cases hin : p ∈ ns
          · exact ⟨dictInsert params p pv, by simp [propsStep, hu, hp, hin],
              dictGet_insert_other _ _ _ _ hpk⟩
          · exact ⟨params, by simp [propsStep, hu, hp, hin], rfl⟩

theorem read_in_props_aux_preserves (post : List Line)
    (names : Option (List (List Char)))
    (params : List (List Char × Option (List Char))) (k : List Char)
    (h : ∀ l ∈ post, flatSkips l k = true) :
    ∃ ps, read_in_props_aux post names params = .ok ps
      ∧ dictGet ps k = dictGet params k := by
  induction post generalizing params with
  | nil => exact ⟨params, rfl, rfl⟩
  | cons l t ih =>
    obtain ⟨ps1, hs1, hg1⟩ := propsStep_preserves names params l k (h l (by simp))
    obtain ⟨ps2, hs2, hg2⟩ := ih ps1 (fun x hx => h x (List.mem_cons_of_mem _ hx))
    refine ⟨ps2, ?_, by rw [hg2, hg1]⟩
    simp [read_in_props_aux, hs1, hs2]

/-- A line whose unpacking yields a non-`None` key yields a two-token line:
the value is also non-`None` and both tokens are nonempty. -/
theorem unpack2_ok_shape (l : Line) (a : List Char) (pv : Option (List Char))
    (h : unpack2 (__parse_props_line l) = .ok (some a, pv)) :
    ∃ b, pv = some b ∧ b ≠ [] ∧ a ≠ [] := by
  cases hp : __parse_props_line l with
  | skip => rw [hp] at h; simp [unpack2] at h
  | fields ps =>
    rw [hp] at h
    cases ps with
    | nil => simp [unpack2] at h
    | cons x t1 =>
      cases t1 with
      | nil => simp [unpack2] at h
      | cons y t2 =>
        cases t2 with
        | nil =>
          simp only [unpack2, PyResult.ok.injEq, Prod.mk.injEq,
            Option.some.injEq] at h
          obtain ⟨hxa, hpv⟩ := h
          have htok := (parse_props_fields l _ hp).1
          refine ⟨y, hpv.symm, pySplit_ne_nil l y (by rw [htok]; simp), ?_⟩
          rw [← hxa]
          exact pySplit_ne_nil l x (by rw [htok]; simp)
        | cons z t3 => simp [unpack2] at h

/-- Unpacking a token list whose length is not two raises `ValueError`. -/
theorem unpack2_bad (ps : List (List Char)) (h : ps.length ≠ 2) :
    unpack2 (.fields ps) = .raised .valueError := by
  cases ps with
  | nil => rfl
  | cons x t1 =>
    cases t1 with
    | nil => rfl
    | cons y t2 =>
      cases t2 with
      | nil => exact absurd rfl h
      | cons z t3 => rfl

theorem propsStep_wf_ok (params : List (List Char × Option (List Char)))
    (l : Line) (h : lineWF l = true) :
    ∃ ps, propsStep none params l = .ok ps := by
  unfold lineWF at h
  cases hp : __parse_props_line l with
  | skip => exact ⟨params, by simp [propsStep, unpack2, hp]⟩
  | fields ps0 =>
    rw [hp] at h
    simp only [decide_eq_true_eq] at h
    cases ps0 with
    | nil => simp at h
    | cons x t1 =>
      cases t1 with
      | nil => simp at h
      | cons y t2 =>
        cases t2 with
        | nil =>
          have hx : x ≠ [] :=
            pySplit_ne_nil l x (by rw [(parse_props_fields l _ hp).1]; simp)
          exact ⟨dictInsert params x (some y),
            by simp [propsStep, unpack2, hp, hx]⟩
        | cons z t3 => simp at h

theorem read_in_props_aux_wf_ok (xs : List Line)
    (params : List (List Char × Option (List Char)))
    (h : ∀ l ∈ xs, lineWF l = true) :
    ∃ ps, read_in_props_aux xs none params = .ok ps := by
  induction xs generalizing params with
  | nil => exact ⟨params, rfl⟩
  | cons l t ih =>
    obtain ⟨ps1, hs1⟩ := propsStep_wf_ok params l (h l (by simp))
    obtain ⟨ps2, hs2⟩ := ih ps1 (fun x hx => h x (List.mem_cons_of_mem _ hx))
    exact ⟨ps2, by simp [read_in_props_aux, hs1, hs2]⟩

theorem propsStep_insert (params : List (List Char × Option (List Char)))
    (l : Line) (k w : List Char)
    (hu : unpack2 (__parse_props_line l) = .ok (some k, some w)) :
    propsStep none params l = .ok (dictInsert params k (some w)) := by
  have hk : k ≠ [] := (unpack2_tokens_ne_nil l k w hu).1
  simp [propsStep, hu, hk]

theorem flatSplitAt_cons (l : Line) (rest : List Line) (name : List Char) :
    flatSplitAt (l :: rest) name
      = match unpack2 (__parse_props_line l) with
        | .raised _ => none
        | .ok (pname, _) =>
          if name ≠ [] ∧ pname = some name then some ([], l, rest)
          else
            match flatSplitAt rest name with
            | some (b2, m2, a2) => some (l :: b2, m2, a2)
            | none => none := by
  rw [flatSplitAt.eq_def]

/-- What a successful `flatSplitAt` decomposition means. -/
theorem flatSplitAt_spec (lines : List Line) (name : List Char)
    (b : List Line) (m : Line) (a : List Line)
    (h : flatSplitAt lines name = some (b, m, a)) :
    lines = b ++ m :: a ∧ (∀ l ∈ b, flatSkips l name = true)
      ∧ name ≠ [] ∧ ∃ pv, unpack2 (__parse_props_line m) = .ok (some name, pv) := by
  induction lines generalizing b with
  | nil => simp [flatSplitAt] at h
  | cons l rest ih =>
    rw [flatSplitAt_cons] at h
    cases hu : unpack2 (__parse_props_line l) with
    | raised e => rw [hu] at h; simp at h
    | ok pr =>
      rw [hu] at h
      obtain ⟨pn, pv⟩ := pr
      dsimp only at h
      by_cases hc : name ≠ [] ∧ pn = some name
      · rw [if_pos hc] at h
        simp only [Option.some.injEq, Prod.mk.injEq] at h
        obtain ⟨hb, hm, ha⟩ := h
        subst hb; subst hm; subst ha
        exact ⟨rfl, by simp, hc.1, pv, by rw [hu, hc.2]⟩
      · rw [if_neg hc] at h
        cases hrec : flatSplitAt rest name with
        | none => rw [hrec] at h; simp at h
        | some t =>
          obtain ⟨b2, m2, a2⟩ := t
          rw [hrec] at h
          simp only [Option.some.injEq, Prod.mk.injEq] at h
          obtain ⟨hb, hm, ha⟩ := h
          subst hb; subst hm; subst ha
          obtain ⟨hl, hsk, hn, hpv⟩ := ih b2 hrec
          refine ⟨by rw [hl]; rfl, ?_, hn, hpv⟩
          intro x hx
          rcases List.mem_cons.mp hx with h1 | h2
          · rw [h1]
            unfold flatSkips
            rw [hu]
            simp only [decide_eq_true_eq]
            intro he
            exact hc ⟨hn, he⟩
          · exact hsk x h2

/-- Scanning a prefix on which the reader already returned `.ok none`
(no match, no error) continues into the remainder. -/
theorem read_param_props_ok_none_append (xs ys : List Line) (name : List Char)
    (h : read_param_in_props_file xs name none = .ok none) :
    read_param_in_props_file (xs ++ ys) name none
      = read_param_in_props_file ys name none := by
  induction xs with
  | nil => rfl
  | cons l t ih =>
    cases hu : unpack2 (__parse_props_line l) with
    | raised e => simp [read_param_in_props_file, hu] at h
    | ok pr =>
      obtain ⟨pn, pv⟩ := pr
      by_cases hc : name ≠ [] ∧ pn = some name
      · rw [hc.2] at hu
        obtain ⟨w, hw, -, -⟩ := unpack2_ok_shape l name pv hu
        rw [← hc.2] at hu
        simp only [read_param_in_props_file, hu, if_pos hc] at h
        rw [hw] at h
        simp at h
      · simp only [read_param_in_props_file, hu, if_neg hc] at h
        rw [List.cons_append]
        simp only [read_param_in_props_file, hu, if_neg hc]
        exact ih h

/-- A key that does not begin with `#` keeps its line from being a comment. -/
theorem beginsWith_hash_of (k rest : List Char) (hk : k ≠ [])
    (h : beginsWith k (chars "#") = false) :
    beginsWith (k ++ rest) (chars "#") = false := by
  cases k with
  | nil => exact absurd rfl hk
  | cons c t =>
    have hone : chars "#" = ['#'] := by decide
    rw [hone] at h ⊢
    simp only [List.cons_append, beginsWith, Bool.and_true] at h ⊢
    exact h

/-- With the name-tag line found, an int `value` always raises `TypeError`
in the replace branch (the replacement text is built before matching). -/
theorem xmlReplaceScan_int_raises (l : Line) (rest : List Line)
    (name : List Char) (n : Int)
    (hc : containsSub l (nameTagL name) = true) :
    xmlReplaceScan (l :: rest) name (.pint n) = .raised .typeError := by
  by_cases hv : containsSub l valueOpenL = true
  · rw [xmlReplaceScan_found_same l rest name _ hc hv]; rfl
  · have hvf : containsSub l valueOpenL = false := by simpa using hv
    cases rest with
    | nil => simp [xmlReplaceScan, hc, hvf, replaceLinePy]
    | cons m rest2 =>
      rw [xmlReplaceScan_found_next l m rest2 name _ hc hvf]; rfl

theorem filter_name_nil (props : List XProp) (name : List Char)
    (h : ∀ p ∈ props, p.1 ≠ name) :
    props.filter (fun x => decide (x.1 = name)) = [] := by
  induction props with
  | nil => rfl
  | cons a t ih =>
    have ha : decide (a.1 = name) = false := by simp [h a (by simp)]
    simp [List.filter, ha, ih (fun p hp => h p (List.mem_cons_of_mem _ hp))]

/-! ### Termination of the scan loops when the searched tag exists -/

theorem xmlReplaceScan_no_hang (lines : List Line) (name : List Char)
    (v : PyVal) (h : ∃ l ∈ lines, containsSub l (nameTagL name) = true) :
    xmlReplaceScan lines name v ≠ .raised .hang := by
  induction lines with
  | nil => obtain ⟨l, hl, -⟩ := h; simp at hl
  | cons l rest ih =>
    by_cases hc : containsSub l (nameTagL name) = true
    · by_cases hv : containsSub l valueOpenL = true
      · rw [xmlReplaceScan_found_same l rest name v hc hv]
        cases v <;> simp [replaceLinePy]
      · have hvf : containsSub l valueOpenL = false := by simpa using hv
        cases rest with
        | nil => cases v <;> simp [xmlReplaceScan, hc, hvf, replaceLinePy]
        | cons m rest2 =>
          rw [xmlReplaceScan_found_next l m rest2 name v hc hvf]
          cases v <;> simp [replaceLinePy]
    · have hcf : containsSub l (nameTagL name) = false := by simpa using hc
      rw [xmlReplaceScan_skip l rest name v hcf]
      apply PyResult.map_ne_raised
      apply ih
      obtain ⟨x, hx, hcx⟩ := h
      rcases List.mem_cons.mp hx with h1 | h2
      · rw [h1] at hcx; rw [hcx] at hcf; cases hcf
      · exact ⟨x, h2, hcx⟩

theorem xmlCreateScan_no_hang (lines : List Line) (nw : Line)
    (h : ∃ l ∈ lines, containsSub l closeTagL = true) :
    xmlCreateScan lines nw ≠ .raised .hang := by
  induction lines with
  | nil => obtain ⟨l, hl, -⟩ := h; simp at hl
  | cons l rest ih =>
    by_cases hc : containsSub l closeTagL = true
    · rw [xmlCreateScan_found l rest nw hc]; simp
    · have hcf : containsSub l closeTagL = false := by simpa using hc
      rw [xmlCreateScan_skip l rest nw hcf]
      apply PyResult.map_ne_raised
      apply ih
      obtain ⟨x, hx, hcx⟩ := h
      rcases List.mem_cons.mp hx with h1 | h2
      · rw [h1] at hcx; rw [hcx] at hcf; cases hcf
      · exact ⟨x, h2, hcx⟩

/-! ### The claims -/

/-- C5: `replace_in_xml_file` terminates provided that, when the key is
present (truthy current value), some line contains the literal
`<name>NAME</name>`, and that, when the key is absent and
`create_if_absent` is true, some line contains `</configuration>`; without
these the scan loops read past end of file forever (`hang`). -/
theorem c5_replace_xml_terminates (parsed : List XProp) (lines : List Line)
    (name : List Char) (value : PyVal) (cia rip : Bool)
    (h1 : truthy (read_param_in_xml_file parsed name none) = true →
      ∃ l ∈ lines, containsSub l (nameTagL name) = true)
    (h2 : truthy (read_param_in_xml_file parsed name none) = false →
      cia = true → ∃ l ∈ lines, containsSub l closeTagL = true) :
    replace_in_xml_file parsed lines name value cia rip ≠ .raised .hang := by
  by_cases htr : truthy (read_param_in_xml_file parsed name none) = true
  · by_cases hr : rip = true
    · have he : replace_in_xml_file parsed lines name value cia rip
          = PyResult.map (fun out => (out, true)) (xmlReplaceScan lines name value) := by
        simp [replace_in_xml_file, htr, hr]
      rw [he]
      exact PyResult.map_ne_raised _ _ _ (xmlReplaceScan_no_hang lines name value (h1 htr))
    · have he : replace_in_xml_file parsed lines name value cia rip
          = .ok (lines, false) := by
        simp [replace_in_xml_file, htr, hr]
      rw [he]; simp
  · have htf : truthy (read_param_in_xml_file parsed name none) = false := by
      simpa using htr
    by_cases hcia : cia = true
    · have he : replace_in_xml_file parsed lines name value cia rip
          = PyResult.map (fun out => (out, true))
              (xmlCreateScan lines (newPropLine name value)) := by
        simp [replace_in_xml_file, htf, hcia]
      rw [he]
      exact PyResult.map_ne_raised _ _ _
        (xmlCreateScan_no_hang lines (newPropLine name value) (h2 htf hcia))
    · have he : replace_in_xml_file parsed lines name value cia rip
          = .ok (lines, false) := by
        simp [replace_in_xml_file, htf, hcia]
      rw [he]; simp

/-- Witness for C5 at a concrete file. -/
theorem c5_replace_xml_terminates_witness :
    replace_in_xml_file [(chars "k", some (chars "1"))]
        [chars "<configuration>\n",
         chars "  <property><name>k</name><value>1</value></property>\n",
         chars "</configuration>"]
        (chars "k") (.pstr (chars "2")) false true ≠ .raised .hang :=
  c5_replace_xml_terminates _ _ _ _ _ _ (by decide) (by decide)

/-- C6: with the key present, an XML write with `replace_if_present=false`
and a flat write with `override=false` return false and leave the file
content unchanged (these paths return before any temporary file exists). -/
theorem c6_noop_preserves (parsed : List XProp) (lines : List Line)
    (name : List Char) (value : PyVal) (cia : Bool)
    (flines : List Line) (fname : List Char) (fvalue : PyVal) (fcia : Bool)
    (cv : Option (List Char))
    (hx : truthy (read_param_in_xml_file parsed name none) = true)
    (hf : read_param_in_props_file flines fname none = .ok cv)
    (hcv : truthy cv = true) :
    replace_in_xml_file parsed lines name value cia false = .ok (lines, false)
    ∧ write_in_props_file flines fname fvalue fcia false = .ok (flines, false) := by
  constructor
  · simp [replace_in_xml_file, hx]
  · simp [write_in_props_file, hf, hcv]

/-- C1: frame preservation of a successful replacing write.  In the XML
store the rewrite touches only the line carrying `<name>K</name>` (when the
`<value>` is on that same line) or that line's successor (when it is not);
every line before and after is copied byte for byte.  In the flat store,
with the key present and `override` true, only the first line whose key
equals the name is replaced; all other lines are copied byte for byte. -/
theorem c1_write_frame (parsed : List XProp) (before after : List Line)
    (tagLine : Line) (name v : List Char) (cia : Bool)
    (fbefore fafter : List Line) (fline : Line) (fname fw : List Char)
    (fvalue : PyVal) (fcia : Bool)
    (hb : ∀ l ∈ before, containsSub l (nameTagL name) = false)
    (ht : containsSub tagLine (nameTagL name) = true)
    (htr : truthy (read_param_in_xml_file parsed name none) = true)
    (hfb : ∀ l ∈ fbefore, flatSkips l fname = true)
    (hfl : unpack2 (__parse_props_line fline) = .ok (some fname, some fw)) :
    (containsSub tagLine valueOpenL = true →
      replace_in_xml_file parsed (before ++ tagLine :: after) name
          (.pstr v) cia true
        = .ok (before ++ __replace_line tagLine v :: after, true))
    ∧ (∀ m rest2, containsSub tagLine valueOpenL = false →
        after = m :: rest2 →
        replace_in_xml_file parsed (before ++ tagLine :: after) name
            (.pstr v) cia true
          = .ok (before ++ tagLine :: __replace_line m v :: rest2, true))
    ∧ write_in_props_file (fbefore ++ fline :: fafter) fname fvalue fcia true
        = .ok (fbefore
            ++ (fname ++ chars "\t" ++ pyStr fvalue ++ chars "\n") :: fafter,
            true) := by
  have hname : fname ≠ [] := (unpack2_tokens_ne_nil _ _ _ hfl).1
  have hfwne : fw ≠ [] := (unpack2_tokens_ne_nil _ _ _ hfl).2
  refine ⟨?_, ?_, ?_⟩
  · intro hv
    have hscan : xmlReplaceScan (before ++ tagLine :: after) name (.pstr v)
        = .ok (before ++ __replace_line tagLine v :: after) := by
      rw [xmlReplaceScan_append before (tagLine :: after) name _ hb,
        xmlReplaceScan_found_same tagLine after name _ ht hv]
      simp [replaceLinePy]
    simp [replace_in_xml_file, htr, hscan]
  · intro m rest2 hv hafter
    subst hafter
    have hscan : xmlReplaceScan (before ++ tagLine :: m :: rest2) name (.pstr v)
        = .ok (before ++ tagLine :: __replace_line m v :: rest2) := by
      rw [xmlReplaceScan_append before (tagLine :: m :: rest2) name _ hb,
        xmlReplaceScan_found_next tagLine m rest2 name _ ht hv]
      simp [replaceLinePy]
    simp [replace_in_xml_file, htr, hscan]
  · have hread : read_param_in_props_file (fbefore ++ fline :: fafter) fname none
        = .ok (some fw) := by
      rw [read_param_props_append fbefore _ fname none hfb]
      exact read_param_props_found fline fafter fname (some fw) none hfl hname
    have htru : truthy (some fw) = true := by
      cases fw with
      | nil => exact absurd rfl hfwne
      | cons c t => rfl
    have hscan : propsOverwriteScan (fbefore ++ fline :: fafter) fname fvalue
        = .ok (fbefore
            ++ (fname ++ chars "\t" ++ pyStr fvalue ++ chars "\n") :: fafter) := by
      rw [propsOverwriteScan_append fbefore _ fname _ hfb,
        propsOverwriteScan_found fline fafter fname (some fw) fvalue hfl hname]
      simp
    simp [write_in_props_file, hread, htru, hscan]

/-- Witness for C1 at concrete files (same-line XML case and flat case). -/
theorem c1_write_frame_witness :
    replace_in_xml_file [(chars "k", some (chars "1"))]
        ([chars "<configuration>\n"]
          ++ chars "  <property><name>k</name><value>1</value></property>\n"
            :: [chars "</configuration>"])
        (chars "k") (.pstr (chars "2")) false true
      = .ok ([chars "<configuration>\n"]
          ++ __replace_line
              (chars "  <property><name>k</name><value>1</value></property>\n")
              (chars "2") :: [chars "</configuration>"], true)
    ∧ write_in_props_file ([chars "# c\n"] ++ chars "k 1\n" :: [chars "z 9\n"])
        (chars "k") (.pstr (chars "2")) false true
      = .ok ([chars "# c\n"]
          ++ (chars "k" ++ chars "\t" ++ pyStr (.pstr (chars "2")) ++ chars "\n")
            :: [chars "z 9\n"], true) := by
  have h := c1_write_frame [(chars "k", some (chars "1"))]
    [chars "<configuration>\n"] [chars "</configuration>"]
    (chars "  <property><name>k</name><value>1</value></property>\n")
    (chars "k") (chars "2") false
    [chars "# c\n"] [chars "z 9\n"] (chars "k 1\n") (chars "k") (chars "1")
    (.pstr (chars "2")) false
    (by decide) (by decide) (by decide) (by decide) (by decide)
  exact ⟨h.1 (by decide), h.2.2⟩

/-- C2: on files in which the key `K` occurs in two (or more) distinct
entries, the four read operations simultaneously give: XML
`read_param_in_xml_file` the first match's value, XML `read_in_xml_file`
the last match's value, flat `read_param_in_props_file` the first matching
line's value, flat `read_in_props_file` the last matching line's value. -/
theorem c2_first_last_reads
    (props : List XProp) (K : List Char) (p q : XProp) (rest : List XProp)
    (d : Option (List Char))
    (fpre frest : List Line) (l1 : Line) (w1 : List Char)
    (d2 : Option (List Char))
    (gpre gpost : List Line) (l2 : Line) (w2 : List Char)
    (hfil : props.filter (fun x => decide (x.1 = K)) = p :: rest)
    (hrest : rest.getLast? = some q)
    (hfpre : ∀ l ∈ fpre, flatSkips l K = true)
    (hl1 : unpack2 (__parse_props_line l1) = .ok (some K, some w1))
    (hgpre : ∀ l ∈ gpre, lineWF l = true)
    (hl2 : unpack2 (__parse_props_line l2) = .ok (some K, some w2))
    (hgpost : ∀ l ∈ gpost, flatSkips l K = true) :
    read_param_in_xml_file props K d = p.2
    ∧ read_in_xml_file props [K] = [(K, q.2)]
    ∧ read_param_in_props_file (fpre ++ l1 :: frest) K d2 = .ok (some w1)
    ∧ ∃ ps, read_in_props_file (gpre ++ l2 :: gpost) none = .ok ps
        ∧ dictGet ps K = some (some w2) := by
  have hK : K ≠ [] := (unpack2_tokens_ne_nil _ _ _ hl1).1
  have hne : rest ≠ [] := by
    intro he; rw [he] at hrest; simp at hrest
  refine ⟨?_, ?_, ?_, ?_⟩
  · simp [read_param_in_xml_file, hfil]
  · have hlast : (props.filter (fun x => decide (x.1 = K))).getLast? = some q := by
      rw [hfil]
      cases rest with
      | nil => exact absurd rfl hne
      | cons x t => rw [List.getLast?_cons_cons]; exact hrest
    unfold read_in_xml_file
    rw [if_neg (by simp : ¬([K] : List (List Char)) = [])]
    simp only [List.foldl_cons, List.foldl_nil]
    rw [hlast]
    rfl
  · rw [read_param_props_append fpre _ K d2 hfpre]
    exact read_param_props_found l1 frest K (some w1) d2 hl1 hK
  · obtain ⟨ps1, hs1⟩ := read_in_props_aux_wf_ok gpre [] hgpre
    obtain ⟨ps2, hs2, hg⟩ := read_in_props_aux_preserves gpost none
      (dictInsert ps1 K (some w2)) K hgpost
    refine ⟨ps2, ?_, by rw [hg]; exact dictGet_insert_self _ _ _⟩
    have hA := read_in_props_aux_append gpre (l2 :: gpost) none []
    rw [hs1] at hA
    unfold read_in_props_file
    rw [hA]
    simp [read_in_props_aux, propsStep_insert ps1 l2 K w2 hl2, hs2]

/-- Witness for C2 on fixtures with a duplicated key. -/
theorem c2_first_last_reads_witness :
    read_param_in_xml_file
        [(chars "k", some (chars "1")), (chars "z", some (chars "0")),
         (chars "k", some (chars "2"))] (chars "k") none = some (chars "1")
    ∧ read_in_xml_file
        [(chars "k", some (chars "1")), (chars "z", some (chars "0")),
         (chars "k", some (chars "2"))] [chars "k"]
      = [(chars "k", some (chars "2"))]
    ∧ read_param_in_props_file ([chars "# c\n"] ++ chars "k 1\n"
        :: [chars "k 2\n"]) (chars "k") none = .ok (some (chars "1"))
    ∧ ∃ ps, read_in_props_file ([chars "# c\n", chars "k 1\n"]
          ++ chars "k 2\n" :: []) none = .ok ps
        ∧ dictGet ps (chars "k") = some (some (chars "2")) :=
  c2_first_last_reads
    [(chars "k", some (chars "1")), (chars "z", some (chars "0")),
     (chars "k", some (chars "2"))]
    (chars "k") (chars "k", some (chars "1")) (chars "k", some (chars "2"))
    [(chars "k", some (chars "2"))] none
    [chars "# c\n"] [chars "k 2\n"] (chars "k 1\n") (chars "1") none
    [chars "# c\n", chars "k 1\n"] [] (chars "k 2\n") (chars "2")
    (by decide) (by decide) (by decide) (by decide) (by decide) (by decide)
    (by decide)

/-- C8: creation with `create_if_absent=true`.  On the XML file holding only
the root element pair, exactly one correctly nested single-line property is
inserted immediately before the closing-tag line and true is returned; on a
flat file without the key, exactly one chunk `name + "\t" + str(value) +
"\n"` is appended at the end and true is returned. -/
theorem c8_creation (name : List Char) (value : PyVal) (rip fov : Bool)
    (flines : List Line) (fname : List Char) (fvalue : PyVal)
    (hf : read_param_in_props_file flines fname none = .ok none) :
    replace_in_xml_file (parsedOf []) create_xml_file name value true rip
      = .ok ([chars "<configuration>\n", newPropLine name value,
          chars "</configuration>"], true)
    ∧ write_in_props_file flines fname fvalue true fov
      = .ok (flines ++ [fname ++ chars "\t" ++ pyStr fvalue ++ chars "\n"],
          true) := by
  constructor
  · have h1 : containsSub (chars "<configuration>\n") closeTagL = false := by
      decide
    have h2 : containsSub (chars "</configuration>") closeTagL = true := by
      decide
    have hscan : xmlCreateScan create_xml_file (newPropLine name value)
        = .ok [chars "<configuration>\n", newPropLine name value,
            chars "</configuration>"] := by
      show xmlCreateScan
        (chars "<configuration>\n" :: [chars "</configuration>"]) _ = _
      rw [xmlCreateScan_skip _ _ _ h1, xmlCreateScan_found _ _ _ h2]
      simp
    have htr : truthy (read_param_in_xml_file (parsedOf []) name none)
        = false := rfl
    simp [replace_in_xml_file, htr, hscan]
  · simp [write_in_props_file, hf, truthy]

/-- Witness for C8 at concrete inputs (including an int value, showing the
`str()` coercion in both create branches). -/
theorem c8_creation_witness :
    replace_in_xml_file (parsedOf []) create_xml_file (chars "k") (.pint 7)
        true false
      = .ok ([chars "<configuration>\n", newPropLine (chars "k") (.pint 7),
          chars "</configuration>"], true)
    ∧ write_in_props_file [chars "a 1\n"] (chars "b") (.pint 7) true true
      = .ok ([chars "a 1\n"]
          ++ [chars "b" ++ chars "\t" ++ pyStr (.pint 7) ++ chars "\n"],
          true) :=
  c8_creation (chars "k") (.pint 7) false true [chars "a 1\n"] (chars "b")
    (.pint 7) (by decide)

/-- C9: with the key present in a flat file reachable without a parse error
and `override` true, `write_in_props_file` replaces the first line whose key
equals the name by `name + "\t" + str(value) + "\n"` (the original
inter-field formatting of that line is not preserved), copies every other
line verbatim, and returns true. -/
theorem c9_flat_override (lines : List Line) (name : List Char)
    (value : PyVal) (cia : Bool) (before : List Line) (m : Line)
    (after : List Line)
    (hsplit : flatSplitAt lines name = some (before, m, after)) :
    write_in_props_file lines name value cia true
      = .ok (before ++ (name ++ chars "\t" ++ pyStr value ++ chars "\n") :: after,
          true) := by
  obtain ⟨hlines, hsk, hn, pv, hu⟩ := flatSplitAt_spec lines name before m after hsplit
  obtain ⟨w, hw, hwne, -⟩ := unpack2_ok_shape m name pv hu
  rw [hw] at hu
  subst hlines
  have hread : read_param_in_props_file (before ++ m :: after) name none
      = .ok (some w) := by
    rw [read_param_props_append before _ name none hsk]
    exact read_param_props_found m after name (some w) none hu hn
  have htru : truthy (some w) = true := by
    cases w with
    | nil => exact absurd rfl hwne
    | cons c t => rfl
  have hscan : propsOverwriteScan (before ++ m :: after) name value
      = .ok (before ++ (name ++ chars "\t" ++ pyStr value ++ chars "\n") :: after) := by
    rw [propsOverwriteScan_append before _ name _ hsk,
      propsOverwriteScan_found m after name (some w) value hu hn]
    simp
  simp [write_in_props_file, hread, htru, hscan]

/-- Witness for C9 at a concrete file (note the original line used spaces;
the rewritten line uses a single tab). -/
theorem c9_flat_override_witness :
    write_in_props_file [chars "# c\n", chars "a 1\n", chars "k  1\n",
        chars "k 2\n"] (chars "k") (.pstr (chars "9")) false true
      = .ok ([chars "# c\n", chars "a 1\n"]
          ++ (chars "k" ++ chars "\t" ++ pyStr (.pstr (chars "9")) ++ chars "\n")
            :: [chars "k 2\n"], true) :=
  c9_flat_override [chars "# c\n", chars "a 1\n", chars "k  1\n", chars "k 2\n"]
    (chars "k") (.pstr (chars "9")) false [chars "# c\n", chars "a 1\n"]
    (chars "k  1\n") [chars "k 2\n"] (by decide)

/-- C3 counterexample: on a flat file whose only line has three tokens,
`read_param_in_props_file` raises `ValueError` instead of returning the
default — the claim's "malformed lines are skipped silently" is false. -/
theorem c3_counterexample :
    read_param_in_props_file [chars "a b c\n"] (chars "x") none
      = .raised .valueError
    ∧ (PyResult.raised PyErr.valueError : PyResult (Option (List Char)))
        ≠ .ok none := by
  constructor
  · decide
  · decide

/-- C3 amended: `read_param_in_props_file` returns the value of the first
two-token line whose key equals the name; comment and blank/whitespace-only
lines are skipped silently; the default is returned when every line skips;
but a line with one token or three-or-more tokens reached before any match
raises `ValueError` out of the scan instead of being skipped. -/
theorem c3_read_one_flat (name : List Char) (d : Option (List Char))
    (pre post : List Line) (m : Line) (w : List Char)
    (hpre : ∀ l ∈ pre, flatSkips l name = true)
    (hm : unpack2 (__parse_props_line m) = .ok (some name, some w)) :
    read_param_in_props_file (pre ++ m :: post) name d = .ok (some w)
    ∧ (∀ ls : List Line, (∀ l ∈ ls, flatSkips l name = true) →
        read_param_in_props_file ls name d = .ok d)
    ∧ (∀ (ls post2 : List Line) (bad : Line) (ps : List (List Char)),
        (∀ l ∈ ls, flatSkips l name = true) →
        __parse_props_line bad = .fields ps → ps.length ≠ 2 →
        read_param_in_props_file (ls ++ bad :: post2) name d
          = .raised .valueError) := by
  refine ⟨?_, ?_, ?_⟩
  · rw [read_param_props_append pre _ name d hpre]
    exact read_param_props_found m post name (some w) d hm
      (unpack2_tokens_ne_nil _ _ _ hm).1
  · intro ls hls
    have h := read_param_props_append ls [] name d hls
    simpa using h
  · intro ls post2 bad ps hls hbad hlen
    rw [read_param_props_append ls _ name d hls]
    have hu : unpack2 (__parse_props_line bad) = .raised .valueError := by
      rw [hbad]; exact unpack2_bad ps hlen
    simp [read_param_in_props_file, hu]

/-- Witness for the amended C3 on concrete files: a match behind a comment,
an all-skip file, and a malformed three-token line. -/
theorem c3_read_one_flat_witness :
    read_param_in_props_file ([chars "# c\n"] ++ chars "k 1\n" :: [])
        (chars "k") none = .ok (some (chars "1"))
    ∧ read_param_in_props_file [chars "# c\n"] (chars "k") none = .ok none
    ∧ read_param_in_props_file ([chars "# c\n"] ++ chars "a b c\n" :: [])
        (chars "k") none = .raised .valueError := by
  have h := c3_read_one_flat (chars "k") none [chars "# c\n"] []
    (chars "k 1\n") (chars "1") (by decide) (by decide)
  exact ⟨h.1, h.2.1 [chars "# c\n"] (by decide),
    h.2.2 [chars "# c\n"] [] (chars "a b c\n")
      [chars "a", chars "b", chars "c"] (by decide) (by decide) (by decide)⟩

/-- C4 counterexample: with the key present, the replace branch applied to
an int value raises `TypeError` — the replacement text `r'\g<1><value>' +
value` is built without `str()` — so "no branch fails on a non-string
value" is false. -/
theorem c4_counterexample :
    replace_in_xml_file [(chars "k", some (chars "1"))]
        [chars "<property><name>k</name><value>1</value></property>\n"]
        (chars "k") (.pint 2) false true = .raised .typeError := by
  decide

/-- C4 amended: only the create-if-absent branch coerces the value with
`str()`; the replace-existing branch concatenates the value into the regex
replacement uncoerced and raises `TypeError` on any int value, whatever the
line layout. -/
theorem c4_value_coercion (parsed : List XProp) (before after : List Line)
    (tagLine : Line) (name : List Char) (n : Int) (cia : Bool)
    (cparsed : List XProp) (cpre cpost : List Line) (closeLine : Line)
    (cname : List Char) (cn : Int) (crip : Bool)
    (hb : ∀ l ∈ before, containsSub l (nameTagL name) = false)
    (ht : containsSub tagLine (nameTagL name) = true)
    (htr : truthy (read_param_in_xml_file parsed name none) = true)
    (hcb : ∀ l ∈ cpre, containsSub l closeTagL = false)
    (hcl : containsSub closeLine closeTagL = true)
    (hctr : truthy (read_param_in_xml_file cparsed cname none) = false) :
    replace_in_xml_file parsed (before ++ tagLine :: after) name (.pint n)
        cia true
      = .raised .typeError
    ∧ replace_in_xml_file cparsed (cpre ++ closeLine :: cpost) cname
        (.pint cn) true crip
      = .ok (cpre ++ [newPropLine cname (.pint cn), closeLine], true) := by
  constructor
  · have hscan : xmlReplaceScan (before ++ tagLine :: after) name (.pint n)
        = .raised .typeError := by
      rw [xmlReplaceScan_append before _ name _ hb,
        xmlReplaceScan_int_raises tagLine after name n ht]
      rfl
    simp [replace_in_xml_file, htr, hscan]
  · have hscan : xmlCreateScan (cpre ++ closeLine :: cpost)
        (newPropLine cname (.pint cn))
        = .ok (cpre ++ [newPropLine cname (.pint cn), closeLine]) := by
      rw [xmlCreateScan_append cpre _ _ hcb,
        xmlCreateScan_found closeLine cpost _ hcl]
      rfl
    simp [replace_in_xml_file, hctr, hscan]

/-- Witness for the amended C4 at concrete files. -/
theorem c4_value_coercion_witness :
    replace_in_xml_file [(chars "k", some (chars "1"))]
        ([] ++ chars "<name>k</name><value>1</value>\n" :: [])
        (chars "k") (.pint 2) false true = .raised .typeError
    ∧ replace_in_xml_file [] ([] ++ chars "</configuration>" :: [])
        (chars "k") (.pint 2) true false
      = .ok ([] ++ [newPropLine (chars "k") (.pint 2),
          chars "</configuration>"], true) :=
  c4_value_coercion [(chars "k", some (chars "1"))] [] []
    (chars "<name>k</name><value>1</value>\n") (chars "k") 2 false
    [] [] [] (chars "</configuration>") (chars "k") 2 false
    (by decide) (by decide) (by decide) (by decide) (by decide) (by decide)

/-- Witness for C6 at a concrete file. -/
theorem c6_noop_preserves_witness :
    replace_in_xml_file [(chars "k", some (chars "1"))] [chars "x\n"]
        (chars "k") (.pstr (chars "2")) false false = .ok ([chars "x\n"], false)
    ∧ write_in_props_file [chars "k 1\n"] (chars "k") (.pstr (chars "2"))
        false false = .ok ([chars "k 1\n"], false) :=
  c6_noop_preserves _ _ _ _ _ _ _ _ _ (some (chars "1"))
    (by decide) (by decide) (by decide)

/-- C7 counterexample: the round-trip fails for the empty-string value.
In the XML store, writing `""` for a fresh key creates `<value></value>`,
whose parsed text is Python `None`, so the read returns `None`, not `""`.
In the flat store, the appended line `"k\t\n"` has a single token, so the
read raises `ValueError`. -/
theorem c7_counterexample :
    replace_in_xml_file (parsedOf []) create_xml_file (chars "k") (.pstr [])
        true true
      = .ok (renderDoc [⟨chars "k", []⟩], true)
    ∧ read_param_in_xml_file (parsedOf [⟨chars "k", []⟩]) (chars "k") none
        = none
    ∧ (none : Option (List Char)) ≠ some []
    ∧ write_in_props_file [] (chars "k") (.pstr []) true true
        = .ok ([chars "k\t\n"], true)
    ∧ read_param_in_props_file [chars "k\t\n"] (chars "k") none
        = .raised .valueError := by
  decide

/-- C7 amended: the round-trip holds for a fresh key and a value that is a
nonempty plain token.  XML: on a simple rendered document whose property
lines do not spuriously contain the closing tag, writing a nonempty value
with `create_if_absent=true` appends one property and reading the key back
returns it.  Flat: on a newline-terminated (or empty, `.ok none`-reading)
file, for a nonempty whitespace-free key not starting with `#` and a
nonempty whitespace-free value, writing then reading returns the value. -/
theorem c7_round_trip (ps : List SXProp) (name v : List Char) (rip : Bool)
    (lines : List Line) (k w : List Char) (ov : Bool)
    (habs : ∀ p ∈ ps, p.name ≠ name)
    (hclean : ∀ p ∈ ps, containsSub (renderProp p) closeTagL = false)
    (hv : v ≠ [])
    (hab : read_param_in_props_file lines k none = .ok none)
    (hkh : beginsWith k (chars "#") = false)
    (hks : ∀ c ∈ k, pyIsSpace c = false)
    (hk : k ≠ [])
    (hws : ∀ c ∈ w, pyIsSpace c = false)
    (hw : w ≠ []) :
    replace_in_xml_file (parsedOf ps) (renderDoc ps) name (.pstr v) true rip
      = .ok (renderDoc (ps ++ [⟨name, v⟩]), true)
    ∧ read_param_in_xml_file (parsedOf (ps ++ [⟨name, v⟩])) name none
        = some v
    ∧ write_in_props_file lines k (.pstr w) true ov
      = .ok (lines ++ [k ++ chars "\t" ++ w ++ chars "\n"], true)
    ∧ read_param_in_props_file (lines ++ [k ++ chars "\t" ++ w ++ chars "\n"])
        k none = .ok (some w) := by
  have hfilnil : (parsedOf ps).filter (fun x => decide (x.1 = name)) = [] := by
    apply filter_name_nil
    intro p hp
    simp only [parsedOf, List.mem_map] at hp
    obtain ⟨p0, hp0, rfl⟩ := hp
    exact habs p0 hp0
  have htr : truthy (read_param_in_xml_file (parsedOf ps) name none)
      = false := by
    simp [read_param_in_xml_file, hfilnil, truthy]
  have hline : unpack2
      (__parse_props_line (k ++ (chars "\t" ++ (w ++ chars "\n"))))
      = .ok (some k, some w) := by
    have h1 : chars "\t" = ['\t'] := by decide
    have h2 : chars "\n" = ['\n'] := by decide
    have hform : k ++ (chars "\t" ++ (w ++ chars "\n"))
        = k ++ ('\t' :: (w ++ ['\n'])) := by
      rw [h1, h2]; simp
    have hsplitline : pySplit (k ++ (chars "\t" ++ (w ++ chars "\n"))) = [k, w] := by
      rw [hform, pySplit_word_space k '\t' (w ++ ['\n']) hk hks (by decide)]
      have hform2 : w ++ ['\n'] = w ++ '\n' :: [] := rfl
      rw [hform2, pySplit_word_space w '\n' [] hw hws (by decide)]
      rfl
    have hhash : beginsWith (k ++ (chars "\t" ++ (w ++ chars "\n"))) (chars "#")
        = false := beginsWith_hash_of k _ hk hkh
    unfold __parse_props_line
    rw [if_neg (by rw [hhash]; exact Bool.false_ne_true), hsplitline]
    rfl
  refine ⟨?_, ?_, ?_, ?_⟩
  · have h1 : containsSub (chars "<configuration>\n") closeTagL = false := by
      decide
    have h2 : containsSub (chars "</configuration>") closeTagL = true := by
      decide
    have hmapclean : ∀ l ∈ ps.map renderProp, containsSub l closeTagL = false := by
      intro l hl
      obtain ⟨p, hp, rfl⟩ := List.mem_map.mp hl
      exact hclean p hp
    have hscan : xmlCreateScan (renderDoc ps) (newPropLine name (.pstr v))
        = .ok (renderDoc (ps ++ [⟨name, v⟩])) := by
      show xmlCreateScan
        (chars "<configuration>\n"
          :: (ps.map renderProp ++ [chars "</configuration>"]))
        (newPropLine name (.pstr v)) = _
      rw [xmlCreateScan_skip _ _ _ h1,
        xmlCreateScan_append (ps.map renderProp) _ _ hmapclean,
        xmlCreateScan_found _ _ _ h2]
      simp [renderDoc, renderProp, List.map_append]
    simp [replace_in_xml_file, htr, hscan]
  · unfold read_param_in_xml_file
    rw [show parsedOf (ps ++ [⟨name, v⟩])
        = parsedOf ps ++ [(name, etText v)] from by simp [parsedOf],
      List.filter_append, hfilnil]
    simp [List.filter, etText, hv]
  · simp [write_in_props_file, hab, truthy, pyStr]
  · rw [read_param_props_ok_none_append lines _ k hab]
    simp [read_param_in_props_file, hline, hk]

/-- Witness for the amended C7 at concrete files. -/
theorem c7_round_trip_witness :
    replace_in_xml_file (parsedOf [⟨chars "a", chars "1"⟩])
        (renderDoc [⟨chars "a", chars "1"⟩]) (chars "k") (.pstr (chars "2"))
        true true
      = .ok (renderDoc ([⟨chars "a", chars "1"⟩] ++ [⟨chars "k", chars "2"⟩]),
          true)
    ∧ read_param_in_xml_file
        (parsedOf ([⟨chars "a", chars "1"⟩] ++ [⟨chars "k", chars "2"⟩]))
        (chars "k") none = some (chars "2")
    ∧ write_in_props_file [chars "a 1\n"] (chars "k") (.pstr (chars "2"))
        true true
      = .ok ([chars "a 1\n"]
          ++ [chars "k" ++ chars "\t" ++ chars "2" ++ chars "\n"], true)
    ∧ read_param_in_props_file ([chars "a 1\n"]
          ++ [chars "k" ++ chars "\t" ++ chars "2" ++ chars "\n"])
        (chars "k") none = .ok (some (chars "2")) :=
  c7_round_trip [⟨chars "a", chars "1"⟩] (chars "k") (chars "2") true
    [chars "a 1\n"] (chars "k") (chars "2") true
    (by decide) (by decide) (by decide) (by decide) (by decide) (by decide)
    (by decide) (by decide) (by decide)

/-- C10: both writers test presence by Python truthiness of the looked-up
value.  A key present in the XML document but bound to an empty
`<value></value>` (read back as `None`) is treated as absent: with
`create_if_absent=false` the write returns false and leaves the file
unchanged even with `replace_if_present` true, and with
`create_if_absent=true` a second property for the key is appended while the
original entry stays in place.  In the flat store the looked-up value is
always a nonempty token, so there the truthiness test coincides with
presence. -/
theorem c10_truthiness_presence (ps : List SXProp) (K : List Char)
    (value : PyVal) (rip : Bool)
    (hpresent : ∃ p ∈ ps, p.name = K)
    (hfalsy : truthy (read_param_in_xml_file (parsedOf ps) K none) = false)
    (hclean : ∀ p ∈ ps, containsSub (renderProp p) closeTagL = false) :
    replace_in_xml_file (parsedOf ps) (renderDoc ps) K value false rip
      = .ok (renderDoc ps, false)
    ∧ replace_in_xml_file (parsedOf ps) (renderDoc ps) K value true rip
      = .ok (renderDoc (ps ++ [⟨K, pyStr value⟩]), true)
    ∧ ∀ (ls : List Line) (nm w : List Char),
        read_param_in_props_file ls nm none = .ok (some w) → w ≠ [] := by
  refine ⟨?_, ?_, ?_⟩
  · simp [replace_in_xml_file, hfalsy]
  · have h1 : containsSub (chars "<configuration>\n") closeTagL = false := by
      decide
    have h2 : containsSub (chars "</configuration>") closeTagL = true := by
      decide
    have hmapclean : ∀ l ∈ ps.map renderProp, containsSub l closeTagL = false := by
      intro l hl
      obtain ⟨p, hp, rfl⟩ := List.mem_map.mp hl
      exact hclean p hp
    have hscan : xmlCreateScan (renderDoc ps) (newPropLine K value)
        = .ok (renderDoc (ps ++ [⟨K, pyStr value⟩])) := by
      show xmlCreateScan
        (chars "<configuration>\n"
          :: (ps.map renderProp ++ [chars "</configuration>"]))
        (newPropLine K value) = _
      rw [xmlCreateScan_skip _ _ _ h1,
        xmlCreateScan_append (ps.map renderProp) _ _ hmapclean,
        xmlCreateScan_found _ _ _ h2]
      simp [renderDoc, renderProp, newPropLine, pyStr, List.map_append]
    simp [replace_in_xml_file, hfalsy, hscan]
  · intro ls nm w
    induction ls with
    | nil =>
      intro h
      simp [read_param_in_props_file] at h
    | cons l t ih =>
      intro h
      cases hu : unpack2 (__parse_props_line l) with
      | raised e => simp [read_param_in_props_file, hu] at h
      | ok pr =>
        obtain ⟨pn, pv⟩ := pr
        by_cases hc : nm ≠ [] ∧ pn = some nm
        · simp only [read_param_in_props_file, hu, if_pos hc] at h
          rw [hc.2] at hu
          obtain ⟨b, hb, hbne, -⟩ := unpack2_ok_shape l nm pv hu
          rw [hb] at h
          simp only [PyResult.ok.injEq, Option.some.injEq] at h
          rw [← h]
          exact hbne
        · simp only [read_param_in_props_file, hu, if_neg hc] at h
          exact ih h

/-- Witness for C10: a key bound to an empty value, with both
`create_if_absent` settings, and the flat-token fact at a concrete file. -/
theorem c10_truthiness_presence_witness :
    replace_in_xml_file (parsedOf [⟨chars "k", []⟩])
        (renderDoc [⟨chars "k", []⟩]) (chars "k") (.pstr (chars "9")) false true
      = .ok (renderDoc [⟨chars "k", []⟩], false)
    ∧ replace_in_xml_file (parsedOf [⟨chars "k", []⟩])
        (renderDoc [⟨chars "k", []⟩]) (chars "k") (.pstr (chars "9")) true true
      = .ok (renderDoc ([⟨chars "k", []⟩]
          ++ [⟨chars "k", pyStr (.pstr (chars "9"))⟩]), true)
    ∧ chars "1" ≠ [] := by
  have h := c10_truthiness_presence [⟨chars "k", []⟩] (chars "k")
    (.pstr (chars "9")) true (by decide) (by decide) (by decide)
  exact ⟨h.1, h.2.1, h.2.2 [chars "a 1\n"] (chars "a") (chars "1") (by decide)⟩

end HG5K
